import Mathlib

/-!
Shallow embedding of the core of `Console-Chat/src/main.ts`:
the RAG chunker / index build / query handlers and the two streaming
chat adapters (`handleOllamaStream`, `handleApiStream`).

Conventions of the embedding:
* JS strings are modelled as `List Char`; the byte streams of the
  scenarios are ASCII, so `TextDecoder.decode` is the identity and a
  network read is just a `List Char`.
* `JSON.parse` is modelled by `jsonParse`, a recursive-descent parser
  over a `Json` datatype covering the JSON forms the code manipulates
  (objects, arrays, strings with the simple escapes, `true/false/null`,
  integer numerals); a line that is not a complete JSON value parses to
  `none`, exactly as `JSON.parse` throws on it.
* JS truthiness of a JSON value (`if (content)`) is `Json.truthy`.
* `fetch` of the embedding endpoint is abstracted as an oracle
  `embed : String → List Char → Option (List ℝ)` (model, prompt ↦
  vector); `none` models a thrown `EmbeddingError` (unreachable
  endpoint, non-success status, or missing `embedding` array).
* JS `number` arithmetic in `cosineSimilarity` is modelled over `ℝ`.
-/

/-! ### JSON values (shape produced by `JSON.parse`) -/

mutual
inductive Json where
  | str (s : List Char) : Json
  | num (n : Int) : Json
  | bool (b : Bool) : Json
  | null : Json
  | obj (fs : JFields) : Json
  | arr (es : JElems) : Json
deriving DecidableEq
inductive JFields where
  | fnil : JFields
  | fcons (k : List Char) (v : Json) (rest : JFields) : JFields
deriving DecidableEq
inductive JElems where
  | enil : JElems
  | econs (v : Json) (rest : JElems) : JElems
deriving DecidableEq
end

/-- Whitespace characters trimmed/skipped by `String.prototype.trim` and
`JSON.parse` (the ASCII ones; the scenario bytes contain no others). -/
def isWsChar (c : Char) : Bool :=
  c = ' ' || c = '\t' || c = '\n' || c = '\r' || c = '\x0b' || c = '\x0c'

/-- Drop leading JSON/JS whitespace. -/
def skipWs (l : List Char) : List Char := l.dropWhile isWsChar

/-- The one-character string escapes accepted by `JSON.parse`. -/
def escChar (e : Char) : Option Char :=
  if e = 'n' then some '\n'
  else if e = 't' then some '\t'
  else if e = 'r' then some '\r'
  else if e = 'b' then some '\x08'
  else if e = 'f' then some '\x0c'
  else if e = '"' ∨ e = '\\' ∨ e = '/' then some e
  else none

/-- Parse the remainder of a JSON string literal (the opening quote is
already consumed); supports the one-character escapes. The scenario
inputs contain no `\u` escapes, which this model rejects. -/
def parseStringRest : List Char → Option (List Char × List Char)
  | [] => none
  | '"' :: rest => some ([], rest)
  | '\\' :: e :: rest =>
    (escChar e).bind fun c =>
      (parseStringRest rest).map fun p => (c :: p.1, p.2)
  | c :: rest => (parseStringRest rest).map fun p => (c :: p.1, p.2)

/-- Accumulate a run of decimal digits into a numeral. -/
def parseDigitsAux : Nat → List Char → Nat × List Char
  | acc, c :: rest =>
    if c.isDigit then parseDigitsAux (acc * 10 + (c.toNat - '0'.toNat)) rest
    else (acc, c :: rest)
  | acc, [] => (acc, [])

/-- Parse a nonempty run of decimal digits (the integer numerals of the
JSON grammar; the fractional/exponent forms never occur in the inputs
the handlers see in this development and are rejected). -/
def parseDigits : List Char → Option (Nat × List Char)
  | c :: rest =>
    if c.isDigit then some (parseDigitsAux (c.toNat - '0'.toNat) rest) else none
  | [] => none

mutual
/-- Recursive-descent JSON value parser (fuel-indexed; `jsonParse`
supplies fuel larger than any possible nesting depth). -/
def parseValue : Nat → List Char → Option (Json × List Char)
  | 0, _ => none
  | fuel + 1, s =>
    match s with
    | '"' :: rest => (parseStringRest rest).map fun p => (Json.str p.1, p.2)
    | 't' :: 'r' :: 'u' :: 'e' :: rest => some (Json.bool true, rest)
    | 'f' :: 'a' :: 'l' :: 's' :: 'e' :: rest => some (Json.bool false, rest)
    | 'n' :: 'u' :: 'l' :: 'l' :: rest => some (Json.null, rest)
    | '\x7b' :: rest =>
      match skipWs rest with
      | '\x7d' :: r2 => some (Json.obj JFields.fnil, r2)
      | r1 => (parseFields fuel r1).map fun p => (Json.obj p.1, p.2)
    | '[' :: rest =>
      match skipWs rest with
      | ']' :: r2 => some (Json.arr JElems.enil, r2)
      | r1 => (parseElems fuel r1).map fun p => (Json.arr p.1, p.2)
    | '-' :: rest => (parseDigits rest).map fun p => (Json.num (-(p.1 : Int)), p.2)
    | c :: rest =>
      if c.isDigit then (parseDigits (c :: rest)).map fun p => (Json.num (p.1 : Int), p.2)
      else none
    | [] => none

/-- Parse the members of a JSON object (after the opening brace and its
whitespace). -/
def parseFields : Nat → List Char → Option (JFields × List Char)
  | 0, _ => none
  | fuel + 1, s =>
    match s with
    | '"' :: rest =>
      match parseStringRest rest with
      | none => none
      | some (key, r1) =>
        match skipWs r1 with
        | ':' :: r2 =>
          match parseValue fuel (skipWs r2) with
          | none => none
          | some (v, r3) =>
            match skipWs r3 with
            | ',' :: r4 => (parseFields fuel (skipWs r4)).map fun p => (JFields.fcons key v p.1, p.2)
            | '\x7d' :: r4 => some (JFields.fcons key v JFields.fnil, r4)
            | _ => none
        | _ => none
    | _ => none

/-- Parse the elements of a JSON array (after `[` and its whitespace). -/
def parseElems : Nat → List Char → Option (JElems × List Char)
  | 0, _ => none
  | fuel + 1, s =>
    match parseValue fuel s with
    | none => none
    | some (v, r1) =>
      match skipWs r1 with
      | ',' :: r2 => (parseElems fuel (skipWs r2)).map fun p => (JElems.econs v p.1, p.2)
      | ']' :: r2 => some (JElems.econs v JElems.enil, r2)
      | _ => none
end

/-- Model of `JSON.parse`: a complete JSON value, with only whitespace
around it; anything else throws, i.e. yields `none`. -/
def jsonParse (s : List Char) : Option Json :=
  match parseValue (s.length + 1) (skipWs s) with
  | some (v, rest) => if skipWs rest = [] then some v else none
  | none => none

/-- Property access on a parsed object (later duplicate keys override
earlier ones, as in `JSON.parse`); `undefined` is `none`. -/
def JFields.get : JFields → List Char → Option Json
  | .fnil, _ => none
  | .fcons k v rest, key =>
    match JFields.get rest key with
    | some v2 => some v2
    | none => if k = key then some v else none

/-- JS `value.field` / `value?.field`: `undefined` unless an object
with that key. -/
def Json.getField : Json → List Char → Option Json
  | .obj fs, key => fs.get key
  | _, _ => none

def JElems.head? : JElems → Option Json
  | .enil => none
  | .econs v _ => some v

/-- JS `value?.[0]` on a parsed array. -/
def Json.item0 : Json → Option Json
  | .arr es => es.head?
  | _ => none

/-- JS truthiness of a `JSON.parse` result. -/
def Json.truthy : Json → Bool
  | .str s => s ≠ []
  | .num n => n ≠ 0
  | .bool b => b
  | .null => false
  | .obj _ => true
  | .arr _ => true

/-! ### Stream adapters -/

/-- Events a stream handler sends to the renderer: `stream-chunk`
(a text delta, carrying the JS value that was sent) and `stream-end`. -/
inductive StreamEvent where
  | delta (content : Json) : StreamEvent
  | ended : StreamEvent
deriving DecidableEq

/-- JS `chunk.splitatNewline`: `""` splits to `[""]`, separators at the
ends produce empty segments. -/
def splitOnNl : List Char → List (List Char)
  | [] => [[]]
  | '\n' :: rest => [] :: splitOnNl rest
  | c :: rest =>
    match splitOnNl rest with
    | s :: ss => (c :: s) :: ss
    | [] => [[c]]

/-- JS `line.trim` on a list of characters. -/
def trimList (l : List Char) : List Char :=
  ((l.dropWhile isWsChar).reverse.dropWhile isWsChar).reverse

/-- One line of the Ollama NDJSON handler: parse it; on success, if
`parsed.done === false && parsed.message?.content` (content truthy),
send the content as a delta; parse errors are swallowed. -/
def ollamaLineEvents (line : List Char) : List StreamEvent :=
  match jsonParse line with
  | none => []
  | some j =>
    if j.getField ("done".toList) = some (Json.bool false) then
      match (j.getField ("message".toList)).bind (fun m => m.getField ("content".toList)) with
      | some c => if c.truthy then [StreamEvent.delta c] else []
      | none => []
    else []

/-- Read loop of `handleOllamaStream`: each read chunk is split on `'\n'`
independently — there is no carry-over buffer — nonempty lines are
parsed, and when the reader reports `done` a single `stream-end` is
sent. -/
def handleOllamaStream (reads : List (List Char)) : List StreamEvent :=
  (reads.flatMap fun chunk =>
    ((splitOnNl chunk).filter (fun l => l ≠ [])).flatMap ollamaLineEvents)
  ++ [StreamEvent.ended]

/-- One complete line of the SSE handler: trim, require the `data: `
prefix, drop it; `[DONE]` is a no-op; otherwise parse JSON and send
`parsed.choices?.[0]?.delta?.content` when truthy; parse errors are
swallowed. -/
def apiLineEvents (line : List Char) : List StreamEvent :=
  let trimmed := trimList line
  if ("data: ".toList).isPrefixOf trimmed then
    let data := trimmed.drop 6
    if data = "[DONE]".toList then []
    else
      match jsonParse data with
      | none => []
      | some p =>
        match (((p.getField ("choices".toList)).bind Json.item0).bind
            (fun d => d.getField ("delta".toList))).bind
            (fun d => d.getField ("content".toList)) with
        | some c => if c.truthy then [StreamEvent.delta c] else []
        | none => []
  else []

/-- One read of `handleApiStream`: append the read to the carried
buffer, split on `'\n'`, keep the last (possibly incomplete) segment as
the new buffer, process the complete lines. -/
def apiProcessRead (st : List StreamEvent × List Char) (chunk : List Char) :
    List StreamEvent × List Char :=
  let lines := splitOnNl (st.2 ++ chunk)
  (st.1 ++ lines.dropLast.flatMap apiLineEvents, lines.getLastD [])

/-- Read loop of `handleApiStream`: buffered line splitting across reads;
a single `stream-end` when the reader reports `done` (any leftover
buffer is dropped, as in the source). -/
def handleApiStream (reads : List (List Char)) : List StreamEvent :=
  (reads.foldl apiProcessRead ([], [])).1 ++ [StreamEvent.ended]

/-- The NDJSON scenario bytes of the spec: a newline-terminated line
whose object carries `message.content` = `Hi` and `done` = false,
then a newline-terminated line whose object carries `done` = true. -/
def ndjsonScenarioBytes : List Char :=
  ("\x7b\"message\":\x7b\"content\":\"Hi\"\x7d,\"done\":false\x7d\n\x7b\"done\":true\x7d\n").toList

/-- The SSE scenario bytes of the spec: a `data: ` line whose JSON
carries `choices[0].delta.content` = `Yo`, a blank line, a
`data: [DONE]` line, and a final blank line. -/
def sseScenarioBytes : List Char :=
  ("data: \x7b\"choices\":[\x7b\"delta\":\x7b\"content\":\"Yo\"\x7d\x7d]\x7d\n\ndata: [DONE]\n\n").toList


/-! ### Chunker (`chunkText` and its constants from main.ts) -/

def maxFileBytes : Nat := 2 * 1024 * 1024
def maxChunks : Nat := 500
def chunkSize : Nat := 1000
def chunkOverlap : Nat := 200

/-- JS `text.replace` of every CRLF pair by LF: left-to-right, non-overlapping; the
scan resumes after each replacement. -/
def replaceCrLf : List Char → List Char
  | [] => []
  | [c] => [c]
  | c :: d :: rest =>
    if c = '\r' ∧ d = '\n' then '\n' :: replaceCrLf rest
    else c :: replaceCrLf (d :: rest)

/-- The `while` loop of `chunkText`, fuel-indexed: slice up to
`chunkSize` characters from `start`, trim, push when nonempty; stop when
the slice reached the end or `maxChunks` chunks exist, else restart at
`max 0 (end - chunkOverlap)`. Every iteration with a successor `start`
advances it by `chunkSize - chunkOverlap = 800`, so the
`cleaned.length + 1` fuel supplied by `chunkText` never runs out. -/
def chunkLoop (cleaned : List Char) : Nat → Nat → List (List Char) → List (List Char)
  | 0, _, acc => acc
  | fuel + 1, start, acc =>
    if start < cleaned.length then
      let e := min (start + chunkSize) cleaned.length
      let chunk := trimList ((cleaned.drop start).take (e - start))
      let acc2 := if chunk = [] then acc else acc ++ [chunk]
      if cleaned.length ≤ e then acc2
      else if maxChunks ≤ acc2.length then acc2
      else chunkLoop cleaned fuel (e - chunkOverlap) acc2
    else acc

/-- Function `chunkText` from main.ts: normalize CRLF, trim, then chunk. -/
def chunkText (text : List Char) : List (List Char) :=
  let cleaned := trimList (replaceCrLf text)
  if cleaned = [] then []
  else chunkLoop cleaned (cleaned.length + 1) 0 []

/-! ### Index build (the per-file loop of the `rag-index` handler) -/

/-- One persisted index entry; the `id` field of the source is the string
encoding of the pair of the two fields kept
here. -/
structure RagIndexEntry where
  sourcePath : String
  chunkIndex : Nat
  content : List Char
  embedding : List ℝ

/-- The persisted `ragIndex` record. -/
structure RagIndex where
  entries : List RagIndexEntry
  indexedAt : Option Nat
  embeddingModel : Option String

/-- A collected file as the build loop sees it: its `stat.size` and the
bytes `fs.readFile` returns (the scenario files are text, so bytes are
characters; the PDF branch is routed through the same `chunkText` and is
not separately modelled). -/
structure SrcFile where
  path : String
  size : Nat
  bytes : List Char

/-- Predicate `isBinaryBuffer`: `buffer.includes(0)`. -/
def isBinaryBuffer (l : List Char) : Bool := l.contains '\x00'

/-- The embedding endpoint, abstracted: `fetchOllamaEmbedding(model,
prompt)` either yields the vector or throws (`none`). -/
def EmbedOracle : Type := String → List Char → Option (List ℝ)

/-- The inner chunk loop of the `rag-index` handler: stop at the global
`maxChunks` budget; an embedding failure throws, which the per-file
`catch` turns into "drop the rest of this file, keep what was pushed". -/
def embedChunks (embed : EmbedOracle) (modelName : String) (filePath : String) :
    List RagIndexEntry → List (List Char) → Nat → List RagIndexEntry
  | entries, [], _ => entries
  | entries, c :: rest, i =>
    if maxChunks ≤ entries.length then entries
    else
      match embed modelName c with
      | none => entries
      | some v =>
        embedChunks embed modelName filePath
          (entries ++ [⟨filePath, i, c, v⟩]) rest (i + 1)

/-- The per-file body of the build loop: skip files over `maxFileBytes`,
skip binary buffers, else chunk and embed. -/
def processFile (embed : EmbedOracle) (modelName : String)
    (entries : List RagIndexEntry) (f : SrcFile) : List RagIndexEntry :=
  if maxFileBytes < f.size then entries
  else if isBinaryBuffer f.bytes then entries
  else embedChunks embed modelName f.path entries (chunkText f.bytes) 0

/-- The whole file loop of the `rag-index` handler (its `break` once
`entries.length >= maxChunks` is reached skips every later file, which
the fold renders as the identity step). -/
def ragBuild (embed : EmbedOracle) (modelName : String) (files : List SrcFile) :
    List RagIndexEntry :=
  files.foldl
    (fun entries f =>
      if maxChunks ≤ entries.length then entries
      else processFile embed modelName entries f) []

/-- One iteration of the file loop of `ragBuild`, named so that a build
can be talked about from an arbitrary mid-build entry state: skip the
file when the global budget is already exhausted, else process it. -/
def buildStep (embed : EmbedOracle) (modelName : String)
    (entries : List RagIndexEntry) (f : SrcFile) : List RagIndexEntry :=
  if maxChunks ≤ entries.length then entries
  else processFile embed modelName entries f

/-- The index record the handler persists after the loop. -/
def ragBuildIndex (embed : EmbedOracle) (modelName : String)
    (files : List SrcFile) (now : Nat) : RagIndex :=
  { entries := ragBuild embed modelName files
    indexedAt := some now
    embeddingModel := some modelName }

/-! ### Cosine similarity and the `rag-query` handler -/

/-- Function `cosineSimilarity` from main.ts over real arithmetic (JS floating
point is modelled as `ℝ`). -/
noncomputable def cosineSimilarity (a b : List ℝ) : ℝ :=
  if a.length = 0 ∨ a.length ≠ b.length then 0
  else
    let dot := (List.zipWith (fun x y => x * y) a b).sum
    let normA := (a.map fun x => x * x).sum
    let normB := (b.map fun x => x * x).sum
    if normA = 0 ∨ normB = 0 then 0
    else dot / (Real.sqrt normA * Real.sqrt normB)

structure RagResult where
  sourcePath : String
  content : List Char
  score : ℝ

/-- The distinct failure values the `rag-query` handler can surface
(`missingQuery`/`modelMismatch`/`noModel` are its error-object returns;
`embeddingError` is the uncaught `fetchOllamaEmbedding` throw). -/
inductive RagQueryError where
  | missingQuery : RagQueryError
  | modelMismatch (indexModel : String) : RagQueryError
  | noModel : RagQueryError
  | embeddingError : RagQueryError
deriving DecidableEq

/-- JS truthiness of an optional string field (`null`/`undefined`/`""`
are falsy). -/
def truthyStr : Option String → Bool
  | some s => s ≠ ""
  | none => false

/-- The effective result limit: a supplied positive number is used as
is (no clamping); anything else falls back to 5. -/
def effLimit : Option Int → Nat
  | some k => if 0 < k then k.toNat else 5
  | none => 5

/-- The sort comparator `(a, b) => b.score - a.score`: `a` stays before
`b` exactly when the comparator is `≤ 0`, i.e. `b.score ≤ a.score`. -/
noncomputable def scoreDescBool (x y : RagResult) : Bool :=
  decide (y.score ≤ x.score)

/-- The `rag-query` handler: missing-query guard, empty-index short
circuit, model-mismatch guard, model resolution, query embedding,
scoring, stable descending sort, `slice(0, limit)`. -/
noncomputable def ragQuery (embed : EmbedOracle) (stored : Option RagIndex)
    (query : List Char) (topK : Option Int) (em : Option String) :
    Except RagQueryError (List RagResult) :=
  if query = [] then .error .missingQuery
  else
    match stored with
    | none => .ok []
    | some idx =>
      if idx.entries.length = 0 then .ok []
      else if truthyStr em && truthyStr idx.embeddingModel && em ≠ idx.embeddingModel then
        .error (.modelMismatch (idx.embeddingModel.getD ""))
      else
        match (if truthyStr em then em else idx.embeddingModel) with
        | none => .error .noModel
        | some m =>
          if m = "" then .error .noModel
          else
            match embed m query with
            | none => .error .embeddingError
            | some qv =>
              let scored := idx.entries.map fun e =>
                RagResult.mk e.sourcePath e.content (cosineSimilarity qv e.embedding)
              .ok ((scored.mergeSort scoreDescBool).take (effLimit topK))


/-! ### Concrete inputs used by witnesses and counterexamples -/

/-- An embedding oracle that always succeeds with the vector `[1]`. -/
def embedConst : EmbedOracle := fun _ _ => some [1]

/-- An embedding oracle that fails exactly on the prompt `aaa` (the one
chunk of `fileA`) and succeeds elsewhere. -/
def embedFailA : EmbedOracle := fun _ prompt =>
  if prompt = "aaa".toList then none else some [1]

/-- A small text file whose single chunk is `aaa`. -/
def fileA : SrcFile := ⟨"a.txt", 3, "aaa".toList⟩

/-- A small text file whose single chunk is `bb`. -/
def fileB : SrcFile := ⟨"b.txt", 2, "bb".toList⟩

/-- A file whose `stat.size` exceeds the 2 MiB `maxFileBytes` limit. -/
def bigFile : SrcFile := ⟨"big.txt", 3000000, "xxx".toList⟩

/-- One stored entry, embedded with model `m`. -/
def entry25 : RagIndexEntry := ⟨"f.txt", 0, ['a'], [1]⟩

/-- A stored index of 25 entries recorded with `embeddingModel` = `m`. -/
def idx25 : RagIndex := ⟨List.replicate 25 entry25, some 0, some "m"⟩

/-- A one-entry index recorded with `embeddingModel` = `other-model`. -/
def idxOther : RagIndex := ⟨[⟨"f.txt", 0, ['a'], [1]⟩], some 0, some "other-model"⟩

set_option maxRecDepth 100000

/-! ### Generic list and trimming lemmas -/

theorem dropWhile_eq_self_of_not (p : Char → Bool) (l : List Char)
    (h : ∀ c ∈ l, p c = false) : l.dropWhile p = l := by
  cases l with
  | nil => rfl
  | cons c cs =>
    rw [List.dropWhile_cons]
    simp [h c (List.mem_cons_self c cs)]

theorem trimList_eq_self (l : List Char) (h : ∀ c ∈ l, isWsChar c = false) :
    trimList l = l := by
  unfold trimList
  rw [dropWhile_eq_self_of_not _ l h]
  rw [dropWhile_eq_self_of_not _ l.reverse (fun c hc => h c (List.mem_reverse.mp hc))]
  exact List.reverse_reverse l

theorem replaceCrLf_eq_self (l : List Char) (h : ∀ c ∈ l, c ≠ '\r') :
    replaceCrLf l = l := by
  induction l with
  | nil => rfl
  | cons c cs ih =>
    have hc : c ≠ '\r' := h c (List.mem_cons_self _ _)
    have ih' : replaceCrLf cs = cs := ih (fun x hx => h x (List.mem_cons_of_mem _ hx))
    cases cs with
    | nil => rfl
    | cons d ds =>
      rw [replaceCrLf]
      rw [if_neg (by intro hcd; exact hc hcd.1)]
      rw [ih']

theorem trimList_length_le (l : List Char) : (trimList l).length ≤ l.length := by
  unfold trimList
  calc ((l.dropWhile isWsChar).reverse.dropWhile isWsChar).reverse.length
      = ((l.dropWhile isWsChar).reverse.dropWhile isWsChar).length := by
        rw [List.length_reverse]
    _ ≤ (l.dropWhile isWsChar).reverse.length := (List.dropWhile_sublist _).length_le
    _ = (l.dropWhile isWsChar).length := by rw [List.length_reverse]
    _ ≤ l.length := (List.dropWhile_sublist _).length_le

/-! ### Unfolding and invariants of the chunker -/

theorem chunkLoop_succ (cl : List Char) (fuel start : Nat) (acc : List (List Char)) :
    chunkLoop cl (fuel + 1) start acc =
      if start < cl.length then
        let e := min (start + chunkSize) cl.length
        let chunk := trimList ((cl.drop start).take (e - start))
        let acc2 := if chunk = [] then acc else acc ++ [chunk]
        if cl.length ≤ e then acc2
        else if maxChunks ≤ acc2.length then acc2
        else chunkLoop cl fuel (e - chunkOverlap) acc2
      else acc := rfl

theorem chunkText_of_len2500 (l : List Char) (hlen : l.length = 2500)
    (hws : ∀ c ∈ l, isWsChar c = false) :
    chunkText l = [l.take 1000, (l.drop 800).take 1000, l.drop 1600] := by
  have hcr : replaceCrLf l = l := by
    apply replaceCrLf_eq_self
    intro c hc he
    have hf := hws c hc
    rw [he] at hf
    exact absurd hf (by decide)
  have htrim : trimList l = l := trimList_eq_self l hws
  have hne : ¬ (l = []) := by
    intro h
    rw [h] at hlen
    simp at hlen
  have htr : ∀ (a b : Nat), trimList ((l.drop a).take b) = (l.drop a).take b := by
    intro a b
    exact trimList_eq_self _
      (fun c hc => hws c (List.drop_subset a l (List.take_subset b _ hc)))
  have htr0 : trimList (l.take 1000) = l.take 1000 :=
    trimList_eq_self _ (fun c hc => hws c (List.take_subset _ _ hc))
  have htrd : trimList (l.drop 1600) = l.drop 1600 :=
    trimList_eq_self _ (fun c hc => hws c (List.drop_subset _ _ hc))
  have hn0 : ¬ (l.take 1000 = []) := by
    intro h
    have := congrArg List.length h
    rw [List.length_take, hlen] at this
    simp at this
  have hn800 : ¬ ((l.drop 800).take 1000 = []) := by
    intro h
    have := congrArg List.length h
    rw [List.length_take, List.length_drop, hlen] at this
    simp at this
  have hn1600 : ¬ (l.drop 1600 = []) := by
    intro h
    have := congrArg List.length h
    rw [List.length_drop, hlen] at this
    simp at this
  have hd1600 : (l.drop 1600).take 900 = l.drop 1600 := by
    apply List.take_of_length_le
    rw [List.length_drop, hlen]
  rw [chunkText]
  simp only [hcr, htrim]
  rw [if_neg hne, hlen]
  rw [chunkLoop_succ]
  rw [if_pos (by rw [hlen]; norm_num)]
  simp only [hlen, chunkSize, chunkOverlap, maxChunks, List.drop_zero, Nat.sub_zero,
    Nat.zero_add]
  norm_num
  rw [htr0, if_neg hn0]
  norm_num
  rw [show (2500 : Nat) = 2499 + 1 from rfl, chunkLoop_succ]
  rw [if_pos (by rw [hlen]; norm_num)]
  simp only [hlen, chunkSize, chunkOverlap, maxChunks]
  norm_num
  rw [htr 800 1000, if_neg hn800]
  norm_num
  rw [show (2499 : Nat) = 2498 + 1 from rfl, chunkLoop_succ]
  rw [if_pos (by rw [hlen]; norm_num)]
  simp only [hlen, chunkSize, chunkOverlap, maxChunks]
  norm_num
  rw [hd1600, htrd, if_neg hn1600]

theorem chunkLoop_chunk_le (cl : List Char) :
    ∀ (fuel start : Nat) (acc : List (List Char)),
      (∀ c ∈ acc, c.length ≤ chunkSize) →
      ∀ c ∈ chunkLoop cl fuel start acc, c.length ≤ chunkSize := by
  intro fuel
  induction fuel with
  | zero => intro start acc hacc c hc; exact hacc c hc
  | succ n ih =>
    intro start acc hacc c hc
    rw [chunkLoop_succ] at hc
    by_cases hs : start < cl.length
    · rw [if_pos hs] at hc
      simp only at hc
      set ch := trimList ((cl.drop start).take (min (start + chunkSize) cl.length - start))
        with hch
      set acc2 := if ch = [] then acc else acc ++ [ch] with hacc2
      have hch_le : ch.length ≤ chunkSize := by
        rw [hch]
        calc (trimList ((cl.drop start).take (min (start + chunkSize) cl.length - start))).length
            ≤ ((cl.drop start).take (min (start + chunkSize) cl.length - start)).length :=
              trimList_length_le _
          _ ≤ min (start + chunkSize) cl.length - start := by
              rw [List.length_take]
              exact Nat.min_le_left _ _
          _ ≤ chunkSize := by omega
      have hacc2_le : ∀ x ∈ acc2, x.length ≤ chunkSize := by
        intro x hx
        rw [hacc2] at hx
        by_cases ht : ch = []
        · rw [if_pos ht] at hx
          exact hacc x hx
        · rw [if_neg ht] at hx
          rcases List.mem_append.mp hx with h | h
          · exact hacc x h
          · rw [List.mem_singleton] at h
            subst h
            exact hch_le
      by_cases h1 : cl.length ≤ min (start + chunkSize) cl.length
      · rw [if_pos h1] at hc
        exact hacc2_le c hc
      · rw [if_neg h1] at hc
        by_cases h2 : maxChunks ≤ acc2.length
        · rw [if_pos h2] at hc
          exact hacc2_le c hc
        · rw [if_neg h2] at hc
          exact ih _ _ hacc2_le c hc
    · rw [if_neg hs] at hc
      exact hacc c hc

theorem chunkText_chunk_le (t : List Char) :
    ∀ c ∈ chunkText t, c.length ≤ chunkSize := by
  intro c hc
  rw [chunkText] at hc
  by_cases h : trimList (replaceCrLf t) = []
  · rw [if_pos h] at hc
    cases hc
  · rw [if_neg h] at hc
    exact chunkLoop_chunk_le _ _ _ _ (by intro x hx; cases hx) c hc

/-! ### Invariants of the index build -/

theorem embedChunks_inv (embed : EmbedOracle) (m fp : String) :
    ∀ (cs : List (List Char)) (entries : List RagIndexEntry) (i : Nat),
      entries.length ≤ maxChunks →
      (∀ e ∈ entries, e.content.length ≤ chunkSize) →
      (∀ c ∈ cs, c.length ≤ chunkSize) →
      (embedChunks embed m fp entries cs i).length ≤ maxChunks ∧
      ∀ e ∈ embedChunks embed m fp entries cs i, e.content.length ≤ chunkSize := by
  intro cs
  induction cs with
  | nil => intro entries i h1 h2 _; exact ⟨h1, h2⟩
  | cons c rest ih =>
    intro entries i h1 h2 h3
    rw [embedChunks]
    by_cases hlen : maxChunks ≤ entries.length
    · rw [if_pos hlen]
      exact ⟨h1, h2⟩
    · rw [if_neg hlen]
      cases hemb : embed m c with
      | none => exact ⟨h1, h2⟩
      | some v =>
        apply ih
        · rw [List.length_append, List.length_singleton]
          omega
        · intro e he
          rcases List.mem_append.mp he with h | h
          · exact h2 e h
          · rw [List.mem_singleton] at h
            subst h
            exact h3 c (List.mem_cons_self _ _)
        · intro x hx
          exact h3 x (List.mem_cons_of_mem _ hx)

theorem processFile_inv (embed : EmbedOracle) (m : String)
    (entries : List RagIndexEntry) (f : SrcFile)
    (h1 : entries.length ≤ maxChunks)
    (h2 : ∀ e ∈ entries, e.content.length ≤ chunkSize) :
    (processFile embed m entries f).length ≤ maxChunks ∧
    ∀ e ∈ processFile embed m entries f, e.content.length ≤ chunkSize := by
  rw [processFile]
  by_cases hs : maxFileBytes < f.size
  · rw [if_pos hs]
    exact ⟨h1, h2⟩
  · rw [if_neg hs]
    by_cases hb : isBinaryBuffer f.bytes
    · simp only [hb, if_true]
      exact ⟨h1, h2⟩
    · simp only [hb, Bool.false_eq_true, if_false]
      exact embedChunks_inv embed m f.path (chunkText f.bytes) entries 0 h1 h2
        (chunkText_chunk_le f.bytes)

theorem ragBuild_inv (embed : EmbedOracle) (m : String) (files : List SrcFile) :
    (ragBuild embed m files).length ≤ maxChunks ∧
    ∀ e ∈ ragBuild embed m files, e.content.length ≤ chunkSize := by
  rw [ragBuild]
  suffices h : ∀ (fs : List SrcFile) (entries : List RagIndexEntry),
      entries.length ≤ maxChunks →
      (∀ e ∈ entries, e.content.length ≤ chunkSize) →
      (fs.foldl (fun entries f =>
        if maxChunks ≤ entries.length then entries
        else processFile embed m entries f) entries).length ≤ maxChunks ∧
      ∀ e ∈ fs.foldl (fun entries f =>
        if maxChunks ≤ entries.length then entries
        else processFile embed m entries f) entries, e.content.length ≤ chunkSize by
    exact h files [] (by simp) (by intro e he; cases he)
  intro fs
  induction fs with
  | nil => intro entries h1 h2; exact ⟨h1, h2⟩
  | cons f rest ih =>
    intro entries h1 h2
    rw [List.foldl_cons]
    by_cases hlen : maxChunks ≤ entries.length
    · simp only [if_pos hlen]
      exact ih entries h1 h2
    · simp only [if_neg hlen]
      have hp := processFile_inv embed m entries f h1 h2
      exact ih _ hp.1 hp.2

/-! ### Evaluation and sortedness of the query handler -/

theorem ragQuery_default_model (embed : EmbedOracle) (idx : RagIndex) (q : List Char)
    (topK : Option Int) (m : String) (qv : List ℝ)
    (hq : q ≠ []) (hne : idx.entries.length ≠ 0)
    (hm : idx.embeddingModel = some m) (hm' : m ≠ "")
    (hembed : embed m q = some qv) :
    ragQuery embed (some idx) q topK none =
      Except.ok (((idx.entries.map fun e =>
        RagResult.mk e.sourcePath e.content (cosineSimilarity qv e.embedding)).mergeSort
          scoreDescBool).take (effLimit topK)) := by
  rw [ragQuery]
  simp [hq, hne, hm, hm', hembed, truthyStr]

theorem scoreDescBool_trans (a b c : RagResult) :
    scoreDescBool a b = true → scoreDescBool b c = true → scoreDescBool a c = true := by
  simp only [scoreDescBool, decide_eq_true_eq]
  intro h1 h2
  exact le_trans h2 h1

theorem scoreDescBool_total (a b : RagResult) :
    (scoreDescBool a b || scoreDescBool b a) = true := by
  simp only [scoreDescBool, Bool.or_eq_true, decide_eq_true_eq]
  exact le_total b.score a.score

theorem zipWith_mul_self (a : List ℝ) :
    List.zipWith (fun x y => x * y) a a = a.map fun x => x * x := by
  induction a with
  | nil => rfl
  | cons x xs ih => simp [ih]

/-! ### The claims -/

/-- C1: the claim says the NDJSON scenario bytes, split at any byte
offset into two reads, always yield exactly one `Hi` delta followed by
`ENDED`, because partial lines are buffered across read boundaries.
The code has no carry-over buffer in `handleOllamaStream`: delivered in
one read the bytes do yield the delta and `ENDED`, but split at offset 1
(inside the first JSON line) both fragments of that line fail to parse
and the delta is lost — only `ENDED` is emitted. This contradicts the
buffering the spec mandates for this adapter (and which the sibling
`handleApiStream` implements), so the code, not the claim, is wrong. -/
theorem C1_thm :
    handleOllamaStream [ndjsonScenarioBytes] =
      [StreamEvent.delta (Json.str ("Hi".toList)), StreamEvent.ended] ∧
    handleOllamaStream [ndjsonScenarioBytes.take 1, ndjsonScenarioBytes.drop 1] =
      [StreamEvent.ended] := by
  constructor
  · decide
  · decide

/-- C2 counterexample: the claim says a chunk embedding failure makes
the whole build fail with a structured error. In the code the failure is
caught by the per-file catch: with an oracle failing on the only chunk
of `fileA`, the build of `[fileA, fileB]` completes and persists an
index holding only the entry of `fileB` — a silently truncated index,
not an error. -/
theorem C2_counterexample :
    chunkText fileA.bytes = ["aaa".toList] ∧
    embedFailA "m" ("aaa".toList) = none ∧
    ragBuild embedFailA "m" [fileA, fileB] =
      [RagIndexEntry.mk "b.txt" 0 ("bb".toList) [1]] := by
  refine ⟨by decide, rfl, ?_⟩
  rfl

/-- Processing a chunk list whose tail holds a failing chunk stops at
that chunk, whatever was accumulated before: the entries built from the
chunks before the failure are returned unchanged and the chunks after it
are never looked at (the throw lands in the per-file catch). -/
theorem embedChunks_append_fail (embed : EmbedOracle) (m fp : String)
    (c : List Char) (hfail : embed m c = none) :
    ∀ (good rest : List (List Char)) (entries : List RagIndexEntry) (i : Nat),
      embedChunks embed m fp entries (good ++ c :: rest) i =
      embedChunks embed m fp entries good i := by
  intro good
  induction good with
  | nil =>
    intro rest entries i
    simp only [List.nil_append, embedChunks]
    by_cases h : maxChunks ≤ entries.length
    · rw [if_pos h]
    · rw [if_neg h, hfail]
  | cons g gs ih =>
    intro rest entries i
    simp only [List.cons_append, embedChunks]
    by_cases h : maxChunks ≤ entries.length
    · rw [if_pos h, if_pos h]
    · rw [if_neg h, if_neg h]
      cases hg : embed m g with
      | none => rfl
      | some v => exact ih rest _ _

/-- The chunk loop only appends: whatever entries it starts from remain
an unchanged prefix of its result. -/
theorem embedChunks_prefix (embed : EmbedOracle) (m fp : String) :
    ∀ (cs : List (List Char)) (entries : List RagIndexEntry) (i : Nat),
      entries <+: embedChunks embed m fp entries cs i := by
  intro cs
  induction cs with
  | nil =>
    intro entries i
    simp only [embedChunks]
    exact List.prefix_rfl
  | cons c rest ih =>
    intro entries i
    rw [embedChunks]
    by_cases h : maxChunks ≤ entries.length
    · rw [if_pos h]
    · rw [if_neg h]
      cases hg : embed m c with
      | none => exact List.prefix_rfl
      | some v =>
        exact List.IsPrefix.trans (List.prefix_append entries _)
          (ih (entries ++ [⟨fp, i, c, v⟩]) (i + 1))

/-- The file loop of `ragBuild` is the fold of `buildStep`. -/
theorem ragBuild_eq_foldl (embed : EmbedOracle) (m : String) (files : List SrcFile) :
    ragBuild embed m files = files.foldl (buildStep embed m) [] := rfl

/-- C2 (amended): an embedding failure on any chunk of a file aborts
only that file and only from the failing chunk on. In full generality:
processing a chunk list that fails at some position returns exactly the
entries built from the chunks before the failure, whatever entries were
already accumulated mid-build; those accumulated entries stay as an
unchanged prefix; the file therefore contributes exactly its
pre-failure chunks; and the build, wherever the file sits, continues
over the remaining files from that state and completes as a success —
no structured error is surfaced. -/
theorem C2_amended (embed : EmbedOracle) (modelName : String)
    (pre post : List SrcFile) (f : SrcFile)
    (good : List (List Char)) (c : List Char) (rest : List (List Char))
    (hchunks : chunkText f.bytes = good ++ c :: rest)
    (hfail : embed modelName c = none)
    (hsize : f.size ≤ maxFileBytes) (hbin : isBinaryBuffer f.bytes = false) :
    (∀ (entries : List RagIndexEntry) (i : Nat),
      embedChunks embed modelName f.path entries (good ++ c :: rest) i =
        embedChunks embed modelName f.path entries good i) ∧
    (∀ (entries : List RagIndexEntry) (i : Nat),
      entries <+: embedChunks embed modelName f.path entries good i) ∧
    (∀ entries : List RagIndexEntry,
      processFile embed modelName entries f =
        embedChunks embed modelName f.path entries good 0) ∧
    ragBuild embed modelName (pre ++ f :: post) =
      post.foldl (buildStep embed modelName)
        (buildStep embed modelName (ragBuild embed modelName pre) f) := by
  have hstop := embedChunks_append_fail embed modelName f.path c hfail
  refine ⟨fun entries i => hstop good rest entries i,
    fun entries i => embedChunks_prefix embed modelName f.path good entries i,
    fun entries => ?_, ?_⟩
  · rw [processFile, if_neg (Nat.not_lt.mpr hsize), hbin]
    simp only [Bool.false_eq_true, if_false]
    rw [hchunks]
    exact hstop good rest entries 0
  · rw [ragBuild_eq_foldl, ragBuild_eq_foldl, List.foldl_append, List.foldl_cons]

/-- C2 witness: the amended statement at a concrete build (failing file
first, one healthy file after it), instantiating the build-continuation
equation. -/
theorem C2_witness :
    ragBuild embedFailA "m" ([] ++ fileA :: [fileB]) =
      [fileB].foldl (buildStep embedFailA "m")
        (buildStep embedFailA "m" (ragBuild embedFailA "m" []) fileA) :=
  (C2_amended embedFailA "m" [] [fileB] fileA [] ("aaa".toList) []
    (by decide) rfl (by decide) (by decide)).2.2.2

/-- C3 counterexample: the claim says a supplied numeric `topK` is
clamped to the range 1..20, so at most 20 results are ever returned.
The code uses a supplied positive `topK` unclamped: over a 25-entry
index, `topK = 25` returns 25 results. -/
theorem C3_counterexample :
    (ragQuery embedConst (some idx25) ['q'] (some 25) none).map List.length =
      Except.ok 25 ∧ ¬ (25 ≤ 20) := by
  constructor
  · have h := ragQuery_default_model embedConst idx25 ['q'] (some 25) "m" [1]
      (by simp) (by simp [idx25]) rfl (by simp) rfl
    rw [h]
    simp [Except.map, List.length_take, List.length_mergeSort, List.length_map,
      effLimit, idx25]
  · norm_num

/-- C3 (amended): over a non-empty index, when `topK` is omitted (or not
a positive number) the limit defaults to 5 and exactly
`min 5 entries.length` results come back; a supplied positive `topK` is
used as is — without any clamp to 1..20 — returning
`min topK entries.length` results; results are sorted by score
descending. -/
theorem C3_thm (embed : EmbedOracle) (idx : RagIndex) (q : List Char)
    (topK : Option Int) (m : String) (qv : List ℝ)
    (hq : q ≠ []) (hne : idx.entries.length ≠ 0)
    (hm : idx.embeddingModel = some m) (hm' : m ≠ "")
    (hembed : embed m q = some qv) :
    (ragQuery embed (some idx) q topK none).map List.length =
      Except.ok (min (effLimit topK) idx.entries.length) ∧
    ∀ r, ragQuery embed (some idx) q topK none = Except.ok r →
      List.Pairwise (fun x y : RagResult => y.score ≤ x.score) r := by
  have hres := ragQuery_default_model embed idx q topK m qv hq hne hm hm' hembed
  constructor
  · rw [hres]
    simp [Except.map, List.length_take, List.length_mergeSort, List.length_map]
  · intro r hr
    rw [hres] at hr
    have hr' := Except.ok.inj hr
    subst hr'
    have hsorted := List.sorted_mergeSort scoreDescBool_trans scoreDescBool_total
      (idx.entries.map fun e =>
        RagResult.mk e.sourcePath e.content (cosineSimilarity qv e.embedding))
    have htake := List.Pairwise.sublist (List.take_sublist (effLimit topK) _) hsorted
    exact htake.imp (fun h => by
      simpa [scoreDescBool, decide_eq_true_eq] using h)

/-- C3 witness: the amended statement at a concrete 25-entry index with
`topK` omitted — exactly `min 5 25 = 5` results. -/
theorem C3_witness :
    (ragQuery embedConst (some idx25) ['q'] none none).map List.length =
      Except.ok 5 := by
  have h := (C3_thm embedConst idx25 ['q'] none "m" [1]
    (by simp) (by simp [idx25]) rfl (by simp) rfl).1
  rw [h]
  simp [effLimit, idx25]

/-- C4 counterexample: the claim says a 2500-character file chunks into
pieces of roughly 1000/1000/500 characters. Each new chunk starts
`chunkSize - chunkOverlap = 800` characters after the previous start, so
the third chunk spans positions 1600..2500 and has 900 characters, not
about 500. -/
theorem C4_counterexample :
    (chunkText (List.replicate 2500 'a')).map List.length = [1000, 1000, 900] ∧
    (chunkText (List.replicate 2500 'a')).map List.length ≠ [1000, 1000, 500] := by
  have h := chunkText_of_len2500 (List.replicate 2500 'a') (by simp)
    (fun c hc => by rw [List.eq_of_mem_replicate hc]; decide)
  rw [h]
  constructor
  · simp [List.length_take, List.length_drop]
  · simp [List.length_take, List.length_drop]

/-- C4 (amended): chunking any 2500-character non-whitespace text with
`chunkSize = 1000` and `chunkOverlap = 200` produces exactly 3 chunks,
of 1000, 1000 and 900 characters, and each consecutive pair overlaps by
exactly 200 characters (the last 200 characters of one chunk are the
first 200 of the next). -/
theorem C4_amended (l : List Char) (hlen : l.length = 2500)
    (hws : ∀ c ∈ l, isWsChar c = false) :
    chunkText l = [l.take 1000, (l.drop 800).take 1000, l.drop 1600] ∧
    (chunkText l).map List.length = [1000, 1000, 900] ∧
    (l.take 1000).drop 800 = ((l.drop 800).take 1000).take 200 ∧
    ((l.drop 800).take 1000).drop 800 = (l.drop 1600).take 200 := by
  have h := chunkText_of_len2500 l hlen hws
  refine ⟨h, ?_, ?_, ?_⟩
  · rw [h]
    simp [List.length_take, List.length_drop, hlen]
  · rw [List.drop_take, List.take_take]
    norm_num
  · rw [List.drop_take, List.drop_drop]

/-- C4 witness: the amended statement at the concrete 2500-character
text of letters `a`. -/
theorem C4_witness :
    (chunkText (List.replicate 2500 'a')).map List.length = [1000, 1000, 900] :=
  (C4_amended (List.replicate 2500 'a') (by simp)
    (fun c hc => by rw [List.eq_of_mem_replicate hc]; decide)).2.1

/-- C5: a query that supplies an embedding model different from the
recorded model of a non-empty index fails with the model-mismatch error
carrying the recorded model — for every embedding oracle, so no query
embedding is ever consulted on this path and no results are returned. -/
theorem C5_thm (embed : EmbedOracle) (idx : RagIndex) (q : List Char) (topK : Option Int)
    (s r : String) (hq : q ≠ []) (hne : idx.entries.length ≠ 0)
    (him : idx.embeddingModel = some r) (hr : r ≠ "") (hs : s ≠ "") (hsr : s ≠ r) :
    ragQuery embed (some idx) q topK (some s) =
      Except.error (RagQueryError.modelMismatch r) := by
  rw [ragQuery]
  simp [hq, hne, him, hr, hs, hsr, truthyStr]

/-- C5 witness: querying with `nomic-embed-text` against an index built
with `other-model`, under an oracle that always fails (so the mismatch
error cannot come from an embedding call). -/
theorem C5_witness :
    ragQuery (fun _ _ => none) (some idxOther) ['q'] none (some "nomic-embed-text") =
      Except.error (RagQueryError.modelMismatch "other-model") :=
  C5_thm (fun _ _ => none) idxOther ['q'] none "nomic-embed-text" "other-model"
    (by simp) (by simp [idxOther]) rfl (by decide) (by decide) (by decide)

/-- C6: `cosineSimilarity a a = 1` exactly, in the real-arithmetic model
of JS floating point, for every vector with a nonzero component; and the
result is exactly 0 whenever the two lengths differ or either vector has
zero norm (zero sum of squares). -/
theorem C6_thm :
    (∀ a : List ℝ, (∃ x ∈ a, x ≠ 0) → cosineSimilarity a a = 1) ∧
    (∀ a b : List ℝ, a.length ≠ b.length → cosineSimilarity a b = 0) ∧
    (∀ a b : List ℝ,
      ((a.map fun x => x * x).sum = 0 ∨ (b.map fun x => x * x).sum = 0) →
      cosineSimilarity a b = 0) := by
  refine ⟨?_, ?_, ?_⟩
  · rintro a ⟨x, hx, hx0⟩
    have hne : a.length ≠ 0 := by
      intro h
      rw [List.length_eq_zero] at h
      subst h
      cases hx
    have hpos : 0 < (a.map fun y => y * y).sum := by
      have hle : x * x ≤ (a.map fun y => y * y).sum := by
        apply List.single_le_sum
        · intro y hy
          rcases List.mem_map.mp hy with ⟨z, _, rfl⟩
          exact mul_self_nonneg z
        · exact List.mem_map_of_mem _ hx
      have hx2 : 0 < x * x := mul_self_pos.mpr hx0
      linarith
    simp only [cosineSimilarity]
    rw [if_neg (by push_neg; exact ⟨hne, rfl⟩)]
    rw [zipWith_mul_self]
    rw [if_neg (by push_neg; exact ⟨ne_of_gt hpos, ne_of_gt hpos⟩)]
    rw [Real.mul_self_sqrt (le_of_lt hpos)]
    exact div_self (ne_of_gt hpos)
  · intro a b hab
    simp only [cosineSimilarity]
    rw [if_pos (Or.inr hab)]
  · intro a b h
    simp only [cosineSimilarity]
    by_cases hg : a.length = 0 ∨ a.length ≠ b.length
    · rw [if_pos hg]
    · rw [if_neg hg, if_pos h]

/-- C6 witness: the statement at the concrete vectors `[1, 0]` (nonzero,
self-similarity 1) and the mismatched pair `[1]` / `[1, 2]` (score 0). -/
theorem C6_witness :
    cosineSimilarity [(1 : ℝ), 0] [1, 0] = 1 ∧
    cosineSimilarity [(1 : ℝ)] [1, 2] = 0 :=
  ⟨C6_thm.1 [1, 0] ⟨1, List.mem_cons_self 1 [0], one_ne_zero⟩,
   C6_thm.2.1 [1] [1, 2] (by simp)⟩

/-- C7: the SSE scenario bytes, split at any byte offset into two reads,
always yield exactly one `Yo` delta followed by `ENDED` — the trailing
partial line is buffered across the read boundary and the `data: [DONE]`
line produces no delta. -/
theorem C7_thm : ∀ k, k ≤ 62 →
    handleApiStream [sseScenarioBytes.take k, sseScenarioBytes.drop k] =
      [StreamEvent.delta (Json.str ("Yo".toList)), StreamEvent.ended] := by
  decide

/-- C7 witness: the statement at the concrete split offset 7, which
falls inside the first `data: ` line. -/
theorem C7_witness :
    handleApiStream [sseScenarioBytes.take 7, sseScenarioBytes.drop 7] =
      [StreamEvent.delta (Json.str ("Yo".toList)), StreamEvent.ended] :=
  C7_thm 7 (by norm_num)

/-- C8: a query against a missing index, or one with zero entries,
returns the empty result list as a success value, for every embedding
oracle — in particular for the always-failing one, so no embedding call
is consulted. -/
theorem C8_thm (embed : EmbedOracle) (stored : Option RagIndex) (q : List Char)
    (topK : Option Int) (em : Option String) (hq : q ≠ [])
    (hempty : ∀ idx, stored = some idx → idx.entries.length = 0) :
    ragQuery embed stored q topK em = Except.ok [] := by
  cases stored with
  | none => rw [ragQuery]; simp [hq]
  | some idx => rw [ragQuery]; simp [hq, hempty idx rfl]

/-- C8 witness: the statement at the cleared-index sentinel under the
always-failing oracle. -/
theorem C8_witness :
    ragQuery (fun _ _ => none) (some ⟨[], none, none⟩) ['q'] none none =
      Except.ok [] :=
  C8_thm (fun _ _ => none) (some ⟨[], none, none⟩) ['q'] none none
    (by simp) (fun idx h => by cases h; rfl)

/-- C9: after every build, the persisted index has at most
`maxChunks = 500` entries — the budget is global across the whole build
call — and every entry content is at most `chunkSize = 1000` characters
long. -/
theorem C9_thm (embed : EmbedOracle) (modelName : String) (files : List SrcFile)
    (now : Nat) :
    (ragBuildIndex embed modelName files now).entries.length ≤ maxChunks ∧
    ∀ e ∈ (ragBuildIndex embed modelName files now).entries,
      e.content.length ≤ chunkSize :=
  ragBuild_inv embed modelName files

/-- C9 witness: the statement at a concrete one-file build whose single
entry is exhibited. -/
theorem C9_witness :
    (ragBuildIndex embedConst "m" [fileB] 0).entries.length ≤ maxChunks ∧
    (RagIndexEntry.mk "b.txt" 0 ("bb".toList) [1]).content.length ≤ chunkSize := by
  constructor
  · exact (C9_thm embedConst "m" [fileB] 0).1
  · apply (C9_thm embedConst "m" [fileB] 0).2
    show _ ∈ (ragBuildIndex embedConst "m" [fileB] 0).entries
    rw [show (ragBuildIndex embedConst "m" [fileB] 0).entries =
      [RagIndexEntry.mk "b.txt" 0 ("bb".toList) [1]] from rfl]
    exact List.mem_singleton.mpr rfl

/-- C10: a collected file whose `stat.size` exceeds
`maxFileBytes = 2 MiB` is skipped silently — wherever it sits in the
file list, the build result is the same as if the file were absent, so
it contributes no entries. -/
theorem C10_thm (embed : EmbedOracle) (modelName : String) (pre post : List SrcFile)
    (f : SrcFile) (hbig : maxFileBytes < f.size) :
    ragBuild embed modelName (pre ++ f :: post) =
      ragBuild embed modelName (pre ++ post) := by
  rw [ragBuild, ragBuild, List.foldl_append, List.foldl_append, List.foldl_cons]
  have hstep : ∀ (entries : List RagIndexEntry),
      (if maxChunks ≤ entries.length then entries
       else processFile embed modelName entries f) = entries := by
    intro entries
    by_cases h : maxChunks ≤ entries.length
    · rw [if_pos h]
    · rw [if_neg h, processFile, if_pos hbig]
  rw [hstep]

/-- C10 witness: the statement at a concrete build whose first file is
3000000 bytes large. -/
theorem C10_witness :
    ragBuild embedConst "m" [bigFile, fileB] = ragBuild embedConst "m" [fileB] :=
  C10_thm embedConst "m" [] [fileB] bigFile (by decide)
